import Mathlib

/-!
Verification of `sktime/performance_metrics/forecasting.py`.

The module defines two forecast-accuracy metrics, `mase_score` and
`smape_score`, over pandas Series.  We embed the numeric values as `EFloat`:
exact rationals together with the IEEE-754 special values `+inf`, `-inf` and
`NaN`, with arithmetic following the IEEE-754 rules on special values (finite
arithmetic is exact, since none of the verified properties concerns rounding).
A pandas Series is embedded as a time index (list of integer timestamps)
paired with a list of values.  Fallible functions return `Except MetricError`.
-/

set_option autoImplicit false

/-- Numeric values: exact finite rationals plus IEEE-754 special values. -/
inductive EFloat where
  | fin (q : ℚ)
  | pinf
  | ninf
  | nan
deriving DecidableEq, Repr

namespace EFloat

/-- IEEE-754 negation. -/
def neg : EFloat → EFloat
  | fin q => fin (-q)
  | pinf => ninf
  | ninf => pinf
  | nan => nan

/-- IEEE-754 absolute value (`np.abs`). -/
def abs : EFloat → EFloat
  | fin q => fin |q|
  | pinf => pinf
  | ninf => pinf
  | nan => nan

/-- IEEE-754 addition. -/
def add : EFloat → EFloat → EFloat
  | nan, _ => nan
  | _, nan => nan
  | fin a, fin b => fin (a + b)
  | fin _, pinf => pinf
  | fin _, ninf => ninf
  | pinf, fin _ => pinf
  | ninf, fin _ => ninf
  | pinf, pinf => pinf
  | ninf, ninf => ninf
  | pinf, ninf => nan
  | ninf, pinf => nan

/-- IEEE-754 subtraction, `a - b = a + (-b)`. -/
def sub (a b : EFloat) : EFloat := add a (neg b)

/-- IEEE-754 multiplication. -/
def mul : EFloat → EFloat → EFloat
  | nan, _ => nan
  | _, nan => nan
  | fin a, fin b => fin (a * b)
  | fin a, pinf => if a = 0 then nan else if 0 < a then pinf else ninf
  | fin a, ninf => if a = 0 then nan else if 0 < a then ninf else pinf
  | pinf, fin b => if b = 0 then nan else if 0 < b then pinf else ninf
  | ninf, fin b => if b = 0 then nan else if 0 < b then ninf else pinf
  | pinf, pinf => pinf
  | pinf, ninf => ninf
  | ninf, pinf => ninf
  | ninf, ninf => pinf

/-- IEEE-754 division (numpy semantics: `0/0 = NaN`, `x/0 = ±inf`). -/
def div : EFloat → EFloat → EFloat
  | nan, _ => nan
  | _, nan => nan
  | fin a, fin b =>
      if b = 0 then (if a = 0 then nan else if 0 < a then pinf else ninf)
      else fin (a / b)
  | fin _, pinf => fin 0
  | fin _, ninf => fin 0
  | pinf, fin b => if 0 ≤ b then pinf else ninf
  | ninf, fin b => if 0 ≤ b then ninf else pinf
  | pinf, pinf => nan
  | pinf, ninf => nan
  | ninf, pinf => nan
  | ninf, ninf => nan

end EFloat

/-- Sum of a list of values (the reduction inside `np.mean`). -/
def esum (l : List EFloat) : EFloat := l.foldr EFloat.add (EFloat.fin 0)

/-- `np.mean`: sum divided by length.  On the empty list this is `0/0 = NaN`,
matching numpy's "mean of empty slice" behaviour. -/
def npMean (l : List EFloat) : EFloat := EFloat.div (esum l) (EFloat.fin l.length)

/-- A pandas Series: a time index paired with the values.  The two lists
correspond positionally. -/
structure Series where
  index : List ℤ
  values : List EFloat
deriving DecidableEq, Repr

/-- Errors raised by the metrics and their validators. -/
inductive MetricError where
  | inconsistentIndex
  | invalidHorizon
  | valueError (msg : String)
deriving DecidableEq, Repr

/-- Modelled from the spec: `check_consistent_time_indices(a, b)` (imported
from `sktime.utils.validation.forecasting`, not part of the sources) fails
with an `InconsistentIndexError` if the two series' time indices differ
(different length, different timestamps, or different order). -/
def check_consistent_time_indices (a b : Series) : Except MetricError Unit :=
  if a.index = b.index then .ok () else .error .inconsistentIndex

/-- Is the list of timestamps strictly increasing? -/
def isSortedLT : List ℤ → Bool
  | [] => true
  | [_] => true
  | a :: b :: t => a < b && isSortedLT (b :: t)

/-- Modelled from the spec: `validate_obs_horizon(index_or_series)` (imported
from `sktime.utils.validation.forecasting`, not part of the sources) fails
with an `InvalidHorizonError` if the index is not monotonically ordered /
well-formed as a forecasting horizon (in particular an empty index is not a
well-formed horizon), and returns the validated index otherwise. -/
def validate_obs_horizon (idx : List ℤ) : Except MetricError (List ℤ) :=
  if idx.isEmpty || !(isSortedLT idx) then .error .invalidHorizon else .ok idx

/-- `.max()` of a pandas index (meaningful on nonempty indices). -/
def idx_max : List ℤ → ℤ
  | [] => 0
  | x :: xs => xs.foldl max x

/-- `.min()` of a pandas index (meaningful on nonempty indices). -/
def idx_min : List ℤ → ℤ
  | [] => 0
  | x :: xs => xs.foldl min x

/-- Python slice `l[sp:]`. -/
def pySliceFrom (sp : ℕ) (l : List EFloat) : List EFloat := l.drop sp

/-- Python slice `l[:-sp]` (for `sp = 0` this is `l[:0] = []`). -/
def pySliceToNeg (sp : ℕ) (l : List EFloat) : List EFloat :=
  if sp = 0 then [] else l.take (l.length - sp)

/-- Elementwise `np.abs(a - b)` on aligned value lists. -/
def absSubList (a b : List EFloat) : List EFloat :=
  List.zipWith (fun x y => EFloat.abs (EFloat.sub x y)) a b

/-- The in-sample naive mean absolute error of `mase_score`:
`np.mean(np.abs(y_train[sp:] - y_train[:-sp]))`. -/
def maeNaive (y_train_values : List EFloat) (sp : ℕ) : EFloat :=
  npMean (absSubList (pySliceFrom sp y_train_values) (pySliceToNeg sp y_train_values))

/-- `mase_score(y_true, y_pred, y_train, sp=1)`: negative mean absolute
scaled error.  Mirrors the source line by line: consistency check, horizon
validation of both `y_train.index` and `y_pred`'s index, the temporal-ordering
check `train_index.max() >= pred_index.min()` raising a `ValueError`, then
`-np.mean(np.abs(y_true - y_pred)) / mae_naive` (the pandas subtraction is
positional because the indices were checked equal). -/
def mase_score (y_true y_pred y_train : Series) (sp : ℕ := 1) :
    Except MetricError EFloat :=
  match check_consistent_time_indices y_true y_pred with
  | .error e => .error e
  | .ok _ =>
    match validate_obs_horizon y_train.index with
    | .error e => .error e
    | .ok train_index =>
      match validate_obs_horizon y_pred.index with
      | .error e => .error e
      | .ok pred_index =>
        if idx_max train_index ≥ idx_min pred_index then
          .error (.valueError
            "Found y_train with time index which is not before time index of y_pred")
        else
          .ok (EFloat.div
                (EFloat.neg (npMean (absSubList y_true.values y_pred.values)))
                (maeNaive y_train.values sp))

/-- `smape_score(y_true, y_pred)`: negative symmetric mean absolute
percentage error.  Mirrors the source: consistency check, then
`nominator = np.abs(y_true - y_pred)`,
`denominator = np.abs(y_true) + np.abs(y_pred)`,
result `-2 * np.mean(nominator / denominator)`. -/
def smape_score (y_true y_pred : Series) : Except MetricError EFloat :=
  match check_consistent_time_indices y_true y_pred with
  | .error e => .error e
  | .ok _ =>
    let nominator := List.map EFloat.abs
      (List.zipWith EFloat.sub y_true.values y_pred.values)
    let denominator := List.zipWith EFloat.add
      (List.map EFloat.abs y_true.values) (List.map EFloat.abs y_pred.values)
    .ok (EFloat.mul (EFloat.fin (-2))
          (npMean (List.zipWith EFloat.div nominator denominator)))

/-- The per-point SMAPE ratio `|x - y| / (|x| + |y|)` (the claims' per-point
formula; `smape_score` computes the same list through vectorized numpy
operations, see `smape_ratio_list`). -/
def smapePoint (x y : EFloat) : EFloat :=
  EFloat.div (EFloat.abs (EFloat.sub x y)) (EFloat.add (EFloat.abs x) (EFloat.abs y))

/-- Scaling every value of a series by the finite constant `c`. -/
def Series.scale (c : ℚ) (s : Series) : Series :=
  ⟨s.index, s.values.map (EFloat.mul (EFloat.fin c))⟩

instance {ε α : Type} [DecidableEq ε] [DecidableEq α] : DecidableEq (Except ε α)
  | .error a, .error b =>
      if h : a = b then .isTrue (by rw [h])
      else .isFalse (fun hc => h (Except.error.inj hc))
  | .error _, .ok _ => .isFalse (fun hc => Except.noConfusion hc)
  | .ok _, .error _ => .isFalse (fun hc => Except.noConfusion hc)
  | .ok a, .ok b =>
      if h : a = b then .isTrue (by rw [h])
      else .isFalse (fun hc => h (Except.ok.inj hc))


/-! ### Basic lemmas about `EFloat` arithmetic -/

theorem EFloat.nan_add (a : EFloat) : EFloat.add EFloat.nan a = EFloat.nan := by
  cases a <;> rfl

theorem EFloat.add_nan (a : EFloat) : EFloat.add a EFloat.nan = EFloat.nan := by
  cases a <;> rfl

theorem EFloat.div_nan (a : EFloat) : EFloat.div a EFloat.nan = EFloat.nan := by
  cases a <;> rfl

theorem EFloat.mul_nan (a : EFloat) : EFloat.mul a EFloat.nan = EFloat.nan := by
  cases a <;> rfl

theorem EFloat.add_fin_fin (a b : ℚ) :
    EFloat.add (EFloat.fin a) (EFloat.fin b) = EFloat.fin (a + b) := rfl

/-! ### Lemmas about `esum` and `npMean` -/

theorem esum_nil : esum [] = EFloat.fin 0 := rfl

theorem esum_cons (x : EFloat) (l : List EFloat) :
    esum (x :: l) = EFloat.add x (esum l) := rfl

theorem esum_eq_nan_of_mem {l : List EFloat} (h : EFloat.nan ∈ l) :
    esum l = EFloat.nan := by
  induction l with
  | nil => cases h
  | cons x t ih =>
    rw [esum_cons]
    rcases List.mem_cons.mp h with h1 | h2
    · rw [← h1]; exact EFloat.nan_add _
    · rw [ih h2]; exact EFloat.add_nan _

theorem esum_fin_nonneg {l : List EFloat}
    (h : ∀ x ∈ l, ∃ q : ℚ, x = EFloat.fin q ∧ 0 ≤ q) :
    ∃ S : ℚ, esum l = EFloat.fin S ∧ 0 ≤ S := by
  induction l with
  | nil => exact ⟨0, rfl, le_refl 0⟩
  | cons x t ih =>
    obtain ⟨q, hx, hq⟩ := h x (List.mem_cons_self x t)
    obtain ⟨S, hS, hS0⟩ := ih (fun y hy => h y (List.mem_cons_of_mem x hy))
    exact ⟨q + S, by rw [esum_cons, hx, hS, EFloat.add_fin_fin], add_nonneg hq hS0⟩

theorem esum_fin_unit {l : List EFloat}
    (h : ∀ x ∈ l, ∃ q : ℚ, x = EFloat.fin q ∧ 0 ≤ q ∧ q ≤ 1) :
    ∃ S : ℚ, esum l = EFloat.fin S ∧ 0 ≤ S ∧ S ≤ (l.length : ℚ) := by
  induction l with
  | nil => exact ⟨0, rfl, le_refl 0, by simp⟩
  | cons x t ih =>
    obtain ⟨q, hx, hq0, hq1⟩ := h x (List.mem_cons_self x t)
    obtain ⟨S, hS, hS0, hSle⟩ := ih (fun y hy => h y (List.mem_cons_of_mem x hy))
    refine ⟨q + S, by rw [esum_cons, hx, hS, EFloat.add_fin_fin],
      add_nonneg hq0 hS0, ?_⟩
    push_cast [List.length_cons]
    linarith

theorem esum_eq_zero {l : List EFloat} (h : ∀ x ∈ l, x = EFloat.fin 0) :
    esum l = EFloat.fin 0 := by
  induction l with
  | nil => rfl
  | cons x t ih =>
    rw [esum_cons, h x (List.mem_cons_self x t),
      ih (fun y hy => h y (List.mem_cons_of_mem x hy)), EFloat.add_fin_fin]
    norm_num

theorem npMean_eq_nan_of_mem {l : List EFloat} (h : EFloat.nan ∈ l) :
    npMean l = EFloat.nan := by
  rw [npMean, esum_eq_nan_of_mem h]; rfl

/-! ### Membership in `zipWith` -/

theorem exists_zip_of_mem_zipWith {α β γ : Type} {f : α → β → γ} :
    ∀ {a : List α} {b : List β} {z : γ}, z ∈ List.zipWith f a b →
      ∃ u v, (u, v) ∈ List.zip a b ∧ z = f u v := by
  intro a
  induction a with
  | nil => intro b z h; cases h
  | cons x t ih =>
    intro b z h
    cases b with
    | nil => cases h
    | cons y s =>
      rw [List.zipWith_cons_cons] at h
      rcases List.mem_cons.mp h with h1 | h2
      · exact ⟨x, y, by rw [List.zip_cons_cons]; exact List.mem_cons_self _ _, h1⟩
      · obtain ⟨u, v, hm, he⟩ := ih h2
        exact ⟨u, v, by rw [List.zip_cons_cons]; exact List.mem_cons_of_mem _ hm, he⟩

theorem mem_zipWith_of_mem_zip {α β γ : Type} {f : α → β → γ} :
    ∀ {a : List α} {b : List β} {u : α} {v : β}, (u, v) ∈ List.zip a b →
      f u v ∈ List.zipWith f a b := by
  intro a
  induction a with
  | nil => intro b u v h; cases h
  | cons x t ih =>
    intro b u v h
    cases b with
    | nil => cases h
    | cons y s =>
      rw [List.zip_cons_cons] at h
      rw [List.zipWith_cons_cons]
      rcases List.mem_cons.mp h with h1 | h2
      · rw [Prod.mk.injEq] at h1
        rw [h1.1, h1.2]
        exact List.mem_cons_self _ _
      · exact List.mem_cons_of_mem _ (ih h2)

/-! ### Success-path reductions of the two metrics -/

theorem smape_ratio_list (a b : List EFloat) :
    List.zipWith EFloat.div
      (List.map EFloat.abs (List.zipWith EFloat.sub a b))
      (List.zipWith EFloat.add (List.map EFloat.abs a) (List.map EFloat.abs b)) =
    List.zipWith smapePoint a b := by
  induction a generalizing b with
  | nil => simp
  | cons x t ih =>
    cases b with
    | nil => simp
    | cons y s =>
      simp only [List.zipWith_cons_cons, List.map_cons]
      rw [ih]
      rfl

theorem smape_score_ok {y_true y_pred : Series} (h : y_true.index = y_pred.index) :
    smape_score y_true y_pred =
      .ok (EFloat.mul (EFloat.fin (-2))
        (npMean (List.zipWith smapePoint y_true.values y_pred.values))) := by
  unfold smape_score
  rw [show check_consistent_time_indices y_true y_pred = .ok () from by
    simp [check_consistent_time_indices, h]]
  exact congrArg (fun l => Except.ok (EFloat.mul (EFloat.fin (-2)) (npMean l)))
    (smape_ratio_list y_true.values y_pred.values)

theorem mase_score_ok {y_true y_pred y_train : Series} {sp : ℕ}
    (h_idx : y_true.index = y_pred.index)
    (h_tr : validate_obs_horizon y_train.index = .ok y_train.index)
    (h_pr : validate_obs_horizon y_pred.index = .ok y_pred.index)
    (h_ord : idx_max y_train.index < idx_min y_pred.index) :
    mase_score y_true y_pred y_train sp =
      .ok (EFloat.div
        (EFloat.neg (npMean (absSubList y_true.values y_pred.values)))
        (maeNaive y_train.values sp)) := by
  unfold mase_score
  rw [show check_consistent_time_indices y_true y_pred = .ok () from by
    simp [check_consistent_time_indices, h_idx], h_tr, h_pr]
  exact if_neg (not_le.mpr h_ord)

/-! ### Pointwise facts about `smapePoint` -/

theorem smapePoint_zero_zero : smapePoint (EFloat.fin 0) (EFloat.fin 0) = EFloat.nan := by
  simp [smapePoint, EFloat.sub, EFloat.neg, EFloat.abs, EFloat.add, EFloat.div]

theorem smapePoint_self_ne_zero {q : ℚ} (hq : q ≠ 0) :
    smapePoint (EFloat.fin q) (EFloat.fin q) = EFloat.fin 0 := by
  have hd : |q| + |q| ≠ 0 := by positivity
  simp [smapePoint, EFloat.sub, EFloat.neg, EFloat.abs, EFloat.add, EFloat.div, hd]

/-! ### Claim theorems -/

/-- C1: for every `y_train` of length `n_obs ≥ sp + 1` and every
index-consistent `y_true`, `y_pred` satisfying the temporal-ordering
precondition (valid horizons, training data strictly before the forecast
window), `mase_score` returns
`-mean(|y_true - y_pred|) / mean(|y_train[sp:] - y_train[:-sp]|)`, where the
naive in-sample absolute-error list has exactly `n_obs - sp` terms. -/
theorem mase_score_formula (y_true y_pred y_train : Series) (sp : ℕ)
    (h_idx : y_true.index = y_pred.index)
    (h_tr : validate_obs_horizon y_train.index = .ok y_train.index)
    (h_pr : validate_obs_horizon y_pred.index = .ok y_pred.index)
    (h_ord : idx_max y_train.index < idx_min y_pred.index)
    (h_sp : 1 ≤ sp)
    (h_n : sp + 1 ≤ y_train.values.length) :
    mase_score y_true y_pred y_train sp =
      .ok (EFloat.div
        (EFloat.neg (npMean (absSubList y_true.values y_pred.values)))
        (npMean (absSubList (y_train.values.drop sp)
          (y_train.values.take (y_train.values.length - sp))))) ∧
    (absSubList (y_train.values.drop sp)
        (y_train.values.take (y_train.values.length - sp))).length =
      y_train.values.length - sp := by
  constructor
  · rw [mase_score_ok h_idx h_tr h_pr h_ord]
    have hmae : maeNaive y_train.values sp =
        npMean (absSubList (y_train.values.drop sp)
          (y_train.values.take (y_train.values.length - sp))) := by
      simp only [maeNaive, pySliceFrom, pySliceToNeg]
      rw [if_neg (show ¬ sp = 0 by omega)]
    rw [hmae]
  · rw [absSubList, List.length_zipWith, List.length_drop, List.length_take]
    omega

theorem mase_score_formula_witness :
    mase_score ⟨[5, 6], [.fin 20, .fin 22]⟩ ⟨[5, 6], [.fin 21, .fin 21]⟩
      ⟨[0, 1, 2, 3, 4], [.fin 10, .fin 12, .fin 14, .fin 16, .fin 18]⟩ 1 =
      .ok (.fin (-(1 / 2))) := by
  rw [(mase_score_formula ⟨[5, 6], [.fin 20, .fin 22]⟩ ⟨[5, 6], [.fin 21, .fin 21]⟩
    ⟨[0, 1, 2, 3, 4], [.fin 10, .fin 12, .fin 14, .fin 16, .fin 18]⟩ 1
    rfl (by decide) (by decide) (by decide) (by decide) (by decide)).1]
  simp [npMean, esum, absSubList, EFloat.div, EFloat.add, EFloat.sub,
    EFloat.neg, EFloat.abs]
  norm_num

/-- C2: for every index-consistent `y_true`, `y_pred`, `smape_score` returns
`-2` times the mean over all horizon points of
`|y_true_i - y_pred_i| / (|y_true_i| + |y_pred_i|)`. -/
theorem smape_score_formula (y_true y_pred : Series)
    (h : y_true.index = y_pred.index) :
    smape_score y_true y_pred =
      .ok (EFloat.mul (EFloat.fin (-2)) (npMean
        (List.zipWith (fun t p => EFloat.div (EFloat.abs (EFloat.sub t p))
          (EFloat.add (EFloat.abs t) (EFloat.abs p)))
          y_true.values y_pred.values))) :=
  smape_score_ok h

theorem smape_score_formula_witness :
    smape_score ⟨[5, 6], [.fin 10, .fin 0]⟩ ⟨[5, 6], [.fin 10, .fin 2]⟩ =
      .ok (.fin (-1)) := by
  rw [smape_score_formula ⟨[5, 6], [.fin 10, .fin 0]⟩ ⟨[5, 6], [.fin 10, .fin 2]⟩ rfl]
  simp [npMean, esum, EFloat.mul, EFloat.div, EFloat.add, EFloat.sub,
    EFloat.neg, EFloat.abs]

/-- C3: with consistent `y_true`/`y_pred` indices and valid horizons, if
`y_train`'s maximum timestamp is `≥` `y_pred`'s minimum timestamp then
`mase_score` raises the `ValueError`-class error describing `y_train` as not
before `y_pred` (and returns no arithmetic result); if `y_train`'s maximum is
strictly less than `y_pred`'s minimum, no error is raised at all. -/
theorem mase_score_temporal_ordering (y_true y_pred y_train : Series) (sp : ℕ)
    (h_idx : y_true.index = y_pred.index)
    (h_tr : validate_obs_horizon y_train.index = .ok y_train.index)
    (h_pr : validate_obs_horizon y_pred.index = .ok y_pred.index) :
    (idx_min y_pred.index ≤ idx_max y_train.index →
      mase_score y_true y_pred y_train sp =
        .error (.valueError
          "Found y_train with time index which is not before time index of y_pred")) ∧
    (idx_max y_train.index < idx_min y_pred.index →
      ∃ v, mase_score y_true y_pred y_train sp = .ok v) := by
  constructor
  · intro hge
    unfold mase_score
    rw [show check_consistent_time_indices y_true y_pred = .ok () from by
      simp [check_consistent_time_indices, h_idx], h_tr, h_pr]
    exact if_pos hge
  · intro hlt
    exact ⟨_, mase_score_ok h_idx h_tr h_pr hlt⟩

theorem mase_score_temporal_ordering_witness :
    mase_score ⟨[2, 3], [.fin 1, .fin 2]⟩ ⟨[2, 3], [.fin 1, .fin 1]⟩
      ⟨[0, 1, 2], [.fin 1, .fin 1, .fin 1]⟩ 1 =
      .error (.valueError
        "Found y_train with time index which is not before time index of y_pred") :=
  (mase_score_temporal_ordering ⟨[2, 3], [.fin 1, .fin 2]⟩ ⟨[2, 3], [.fin 1, .fin 1]⟩
    ⟨[0, 1, 2], [.fin 1, .fin 1, .fin 1]⟩ 1 rfl (by decide) (by decide)).1 (by decide)

/-- C4: whenever the time indices of `y_true` and `y_pred` differ, both
`mase_score` and `smape_score` fail with `InconsistentIndexError` before any
arithmetic, producing no partial result. -/
theorem inconsistent_index_error (y_true y_pred y_train : Series) (sp : ℕ)
    (h : y_true.index ≠ y_pred.index) :
    mase_score y_true y_pred y_train sp = .error .inconsistentIndex ∧
    smape_score y_true y_pred = .error .inconsistentIndex := by
  constructor
  · unfold mase_score
    rw [show check_consistent_time_indices y_true y_pred =
        .error .inconsistentIndex from by simp [check_consistent_time_indices, h]]
  · unfold smape_score
    rw [show check_consistent_time_indices y_true y_pred =
        .error .inconsistentIndex from by simp [check_consistent_time_indices, h]]

theorem inconsistent_index_error_witness :
    mase_score ⟨[5], [.fin 1]⟩ ⟨[6], [.fin 1]⟩ ⟨[0], [.fin 1]⟩ 1 =
      .error .inconsistentIndex ∧
    smape_score ⟨[5], [.fin 1]⟩ ⟨[6], [.fin 1]⟩ = .error .inconsistentIndex :=
  inconsistent_index_error ⟨[5], [.fin 1]⟩ ⟨[6], [.fin 1]⟩ ⟨[0], [.fin 1]⟩ 1
    (by decide)

/-- C6: if `y_true` and `y_pred` are index-consistent and both are zero at
some point, the `0/0` ratio at that point makes `smape_score` return `NaN`,
with no error raised.  In particular `y_true = [0]`, `y_pred = [0]` gives
`NaN` (see the witness). -/
theorem smape_score_nan_on_joint_zero (y_true y_pred : Series)
    (h_idx : y_true.index = y_pred.index)
    (h0 : (EFloat.fin 0, EFloat.fin 0) ∈ List.zip y_true.values y_pred.values) :
    smape_score y_true y_pred = .ok .nan := by
  rw [smape_score_ok h_idx]
  have hmem : smapePoint (EFloat.fin 0) (EFloat.fin 0) ∈
      List.zipWith smapePoint y_true.values y_pred.values :=
    mem_zipWith_of_mem_zip h0
  rw [smapePoint_zero_zero] at hmem
  rw [npMean_eq_nan_of_mem hmem, EFloat.mul_nan]

theorem smape_score_nan_on_joint_zero_witness :
    smape_score ⟨[0], [.fin 0]⟩ ⟨[0], [.fin 0]⟩ = .ok .nan :=
  smape_score_nan_on_joint_zero ⟨[0], [.fin 0]⟩ ⟨[0], [.fin 0]⟩ rfl
    (List.mem_singleton.mpr rfl)

/-- C5, counterexample: for `y_true = y_pred = [0]` (pointwise-equal series
with consistent indices) `smape_score` does not return `0.0`: the `0/0`
point makes it `NaN`. -/
theorem smape_equal_not_always_zero :
    smape_score ⟨[0], [.fin 0]⟩ ⟨[0], [.fin 0]⟩ ≠ .ok (.fin 0) := by
  have h : smape_score ⟨[0], [.fin 0]⟩ ⟨[0], [.fin 0]⟩ = .ok .nan := by
    simp [smape_score, check_consistent_time_indices, npMean, esum, EFloat.mul,
      EFloat.div, EFloat.add, EFloat.sub, EFloat.neg, EFloat.abs]
  rw [h]
  intro hc
  exact EFloat.noConfusion (Except.ok.inj hc)

/-- C5, amended: for every nonempty pair of pointwise-equal, index-consistent
series with finite and nonzero entries, `smape_score` returns exactly `0.0`. -/
theorem smape_score_exact_zero (y_true y_pred : Series)
    (h_idx : y_true.index = y_pred.index)
    (h_eq : y_true.values = y_pred.values)
    (h_ne : y_true.values ≠ [])
    (h_fin : ∀ x ∈ y_true.values, ∃ q : ℚ, x = .fin q ∧ q ≠ 0) :
    smape_score y_true y_pred = .ok (.fin 0) := by
  rw [smape_score_ok h_idx, ← h_eq]
  have hall : ∀ z ∈ List.zipWith smapePoint y_true.values y_true.values,
      z = EFloat.fin 0 := by
    intro z hz
    rw [List.zipWith_same] at hz
    obtain ⟨x, hx, he⟩ := List.mem_map.mp hz
    obtain ⟨q, hq, hq0⟩ := h_fin x hx
    rw [← he, hq]
    exact smapePoint_self_ne_zero hq0
  have hmean : npMean (List.zipWith smapePoint y_true.values y_true.values) =
      .fin 0 := by
    rw [npMean, esum_eq_zero hall]
    have hn : y_true.values.length ≠ 0 := fun h0 => h_ne (List.length_eq_zero.mp h0)
    simp [EFloat.div, hn]
  rw [hmean]
  simp [EFloat.mul]

theorem smape_score_exact_zero_witness :
    smape_score ⟨[0], [.fin 1]⟩ ⟨[0], [.fin 1]⟩ = .ok (.fin 0) :=
  smape_score_exact_zero ⟨[0], [.fin 1]⟩ ⟨[0], [.fin 1]⟩ rfl rfl (by simp)
    (fun x hx => ⟨1, by simpa using hx, one_ne_zero⟩)

/-- C10: if all index validations pass but `y_train` has length
`n_obs ≤ sp`, no error is raised: the naive-error mean is taken over an empty
slice, `mae_naive` is `NaN`, and `mase_score` silently returns `NaN`. -/
theorem mase_score_short_train (y_true y_pred y_train : Series) (sp : ℕ)
    (h_idx : y_true.index = y_pred.index)
    (h_tr : validate_obs_horizon y_train.index = .ok y_train.index)
    (h_pr : validate_obs_horizon y_pred.index = .ok y_pred.index)
    (h_ord : idx_max y_train.index < idx_min y_pred.index)
    (_h_sp : 1 ≤ sp)
    (h_n : y_train.values.length ≤ sp) :
    maeNaive y_train.values sp = .nan ∧
    mase_score y_true y_pred y_train sp = .ok .nan := by
  have hmae : maeNaive y_train.values sp = .nan := by
    rw [maeNaive,
      show pySliceFrom sp y_train.values = [] from List.drop_eq_nil_of_le h_n]
    simp [absSubList, npMean, esum, EFloat.div]
  refine ⟨hmae, ?_⟩
  rw [mase_score_ok h_idx h_tr h_pr h_ord, hmae, EFloat.div_nan]

theorem mase_score_short_train_witness :
    maeNaive [.fin 5] 1 = .nan ∧
    mase_score ⟨[5], [.fin 1]⟩ ⟨[5], [.fin 2]⟩ ⟨[0], [.fin 5]⟩ 1 = .ok .nan :=
  mase_score_short_train ⟨[5], [.fin 1]⟩ ⟨[5], [.fin 2]⟩ ⟨[0], [.fin 5]⟩ 1
    rfl (by decide) (by decide) (by decide) (by decide) (by decide)

/-! ### Boundedness (C7) -/

theorem EFloat.div_fin_fin_of_ne {a b : ℚ} (hb : b ≠ 0) :
    EFloat.div (EFloat.fin a) (EFloat.fin b) = EFloat.fin (a / b) := by
  simp [EFloat.div, hb]

theorem smapePoint_unit {a b : ℚ} (h : ¬(a = 0 ∧ b = 0)) :
    ∃ q : ℚ, smapePoint (EFloat.fin a) (EFloat.fin b) = EFloat.fin q ∧
      0 ≤ q ∧ q ≤ 1 := by
  have hd : 0 < |a| + |b| := by
    rcases not_and_or.mp h with ha | hb
    · have := abs_pos.mpr ha
      have := abs_nonneg b
      linarith
    · have := abs_pos.mpr hb
      have := abs_nonneg a
      linarith
  refine ⟨|a - b| / (|a| + |b|), ?_, by positivity, ?_⟩
  · simp [smapePoint, EFloat.sub, EFloat.neg, EFloat.abs, EFloat.add,
      EFloat.div, hd.ne', ← sub_eq_add_neg]
  · rw [div_le_one hd]
    exact abs_sub a b

theorem smape_score_not_bounded_on_empty :
    ¬ ∃ r : ℚ, smape_score ⟨[], []⟩ ⟨[], []⟩ = .ok (.fin r) ∧ -2 ≤ r ∧ r ≤ 0 := by
  rintro ⟨r, hr, -, -⟩
  have h : smape_score ⟨[], []⟩ ⟨[], []⟩ = .ok .nan := by
    simp [smape_score, check_consistent_time_indices, npMean, esum,
      EFloat.mul, EFloat.div]
  rw [h] at hr
  exact EFloat.noConfusion (Except.ok.inj hr)

/-- C7, amended: for every nonempty, index-consistent pair of finite-valued
series with no point at which both values are zero, `smape_score` returns a
finite value in the closed interval `[-2, 0]`.  (The empty pair is excluded:
there the mean is `NaN`, see the counterexample.) -/
theorem smape_score_bounded (y_true y_pred : Series)
    (h_idx : y_true.index = y_pred.index)
    (h_t : y_true.values ≠ []) (h_p : y_pred.values ≠ [])
    (h_fin : ∀ uv ∈ List.zip y_true.values y_pred.values,
      ∃ a b : ℚ, uv = (EFloat.fin a, EFloat.fin b) ∧ ¬(a = 0 ∧ b = 0)) :
    ∃ r : ℚ, smape_score y_true y_pred = .ok (.fin r) ∧ -2 ≤ r ∧ r ≤ 0 := by
  rw [smape_score_ok h_idx]
  have hall : ∀ z ∈ List.zipWith smapePoint y_true.values y_pred.values,
      ∃ q : ℚ, z = EFloat.fin q ∧ 0 ≤ q ∧ q ≤ 1 := by
    intro z hz
    obtain ⟨u, v, hm, he⟩ := exists_zip_of_mem_zipWith hz
    obtain ⟨a, b, hab, hnz⟩ := h_fin (u, v) hm
    rw [Prod.mk.injEq] at hab
    obtain ⟨q, hq, hq0, hq1⟩ := smapePoint_unit hnz
    exact ⟨q, by rw [he, hab.1, hab.2, hq], hq0, hq1⟩
  obtain ⟨S, hS, hS0, hSle⟩ := esum_fin_unit hall
  have hnpos : 0 < (List.zipWith smapePoint y_true.values y_pred.values).length := by
    rw [List.length_zipWith]
    have h1 : 0 < y_true.values.length := List.length_pos.mpr h_t
    have h2 : 0 < y_pred.values.length := List.length_pos.mpr h_p
    omega
  have hcast : (0 : ℚ) <
      ((List.zipWith smapePoint y_true.values y_pred.values).length : ℚ) := by
    exact_mod_cast hnpos
  have hmean : npMean (List.zipWith smapePoint y_true.values y_pred.values) =
      .fin (S / ((List.zipWith smapePoint y_true.values y_pred.values).length : ℚ)) := by
    rw [npMean, hS, EFloat.div_fin_fin_of_ne hcast.ne']
  rw [hmean]
  have hq1 : S / ((List.zipWith smapePoint y_true.values y_pred.values).length : ℚ) ≤ 1 :=
    (div_le_one hcast).mpr hSle
  have hq0 : 0 ≤ S / ((List.zipWith smapePoint y_true.values y_pred.values).length : ℚ) := by
    positivity
  refine ⟨-2 * (S / ((List.zipWith smapePoint y_true.values y_pred.values).length : ℚ)),
    by simp [EFloat.mul], by nlinarith, by nlinarith⟩

theorem smape_score_bounded_witness :
    ∃ r : ℚ, smape_score ⟨[5, 6], [.fin 10, .fin 0]⟩ ⟨[5, 6], [.fin 10, .fin 2]⟩ =
      .ok (.fin r) ∧ -2 ≤ r ∧ r ≤ 0 := by
  apply smape_score_bounded ⟨[5, 6], [.fin 10, .fin 0]⟩ ⟨[5, 6], [.fin 10, .fin 2]⟩
    rfl (by simp) (by simp)
  intro uv huv
  simp only [List.zip_cons_cons, List.zip_nil_right, List.mem_cons,
    List.not_mem_nil, or_false] at huv
  rcases huv with h | h
  · exact ⟨10, 10, by rw [h], by norm_num⟩
  · exact ⟨0, 2, by rw [h], by norm_num⟩

/-! ### Finiteness / degenerate division (C9) -/

theorem absSubList_fin_nonneg {a b : List EFloat}
    (ha : ∀ x ∈ a, ∃ q : ℚ, x = EFloat.fin q)
    (hb : ∀ x ∈ b, ∃ q : ℚ, x = EFloat.fin q) :
    ∀ z ∈ absSubList a b, ∃ q : ℚ, z = EFloat.fin q ∧ 0 ≤ q := by
  intro z hz
  obtain ⟨u, v, hm, he⟩ := exists_zip_of_mem_zipWith hz
  obtain ⟨hu, hv⟩ := List.of_mem_zip hm
  obtain ⟨qa, hqa⟩ := ha u hu
  obtain ⟨qb, hqb⟩ := hb v hv
  refine ⟨|qa - qb|, ?_, abs_nonneg _⟩
  rw [he, hqa, hqb]
  simp [EFloat.sub, EFloat.neg, EFloat.abs, EFloat.add, ← sub_eq_add_neg]

theorem npMean_fin_nonneg {l : List EFloat} (hn : l.length ≠ 0)
    (h : ∀ x ∈ l, ∃ q : ℚ, x = EFloat.fin q ∧ 0 ≤ q) :
    ∃ m : ℚ, npMean l = EFloat.fin m ∧ 0 ≤ m := by
  obtain ⟨S, hS, hS0⟩ := esum_fin_nonneg h
  have hq : ((l.length : ℚ)) ≠ 0 := Nat.cast_ne_zero.mpr hn
  refine ⟨S / l.length, ?_, by positivity⟩
  rw [npMean, hS, EFloat.div_fin_fin_of_ne hq]

/-- C9: for valid, finite-valued inputs (all validations pass, `fh ≥ 1`,
`n_obs ≥ sp + 1`, `sp ≥ 1`), `mae_naive` is a finite nonnegative value `q`;
if `q ≠ 0` the score is a single finite float, and if `q = 0` no error is
raised and the score is what float division by zero yields (`NaN` when the
numerator is zero, `-inf` otherwise). -/
theorem mase_score_finite_unless_degenerate (y_true y_pred y_train : Series)
    (sp : ℕ)
    (h_idx : y_true.index = y_pred.index)
    (h_tr : validate_obs_horizon y_train.index = .ok y_train.index)
    (h_pr : validate_obs_horizon y_pred.index = .ok y_pred.index)
    (h_ord : idx_max y_train.index < idx_min y_pred.index)
    (h_sp : 1 ≤ sp)
    (h_n : sp + 1 ≤ y_train.values.length)
    (h_train_fin : ∀ x ∈ y_train.values, ∃ q : ℚ, x = .fin q)
    (h_true_fin : ∀ x ∈ y_true.values, ∃ q : ℚ, x = .fin q)
    (h_pred_fin : ∀ x ∈ y_pred.values, ∃ q : ℚ, x = .fin q)
    (h_t : y_true.values ≠ []) (h_p : y_pred.values ≠ []) :
    ∃ q : ℚ, maeNaive y_train.values sp = .fin q ∧ 0 ≤ q ∧
      (q ≠ 0 → ∃ r : ℚ, mase_score y_true y_pred y_train sp = .ok (.fin r)) ∧
      (q = 0 → mase_score y_true y_pred y_train sp = .ok .nan ∨
               mase_score y_true y_pred y_train sp = .ok .ninf) := by
  have hb : ∀ x ∈ pySliceToNeg sp y_train.values, ∃ q : ℚ, x = EFloat.fin q := by
    intro x hx
    simp only [pySliceToNeg] at hx
    rw [if_neg (show ¬ sp = 0 by omega)] at hx
    exact h_train_fin x (List.mem_of_mem_take hx)
  have ha : ∀ x ∈ pySliceFrom sp y_train.values, ∃ q : ℚ, x = EFloat.fin q :=
    fun x hx => h_train_fin x (List.mem_of_mem_drop hx)
  have hlen : (absSubList (pySliceFrom sp y_train.values)
      (pySliceToNeg sp y_train.values)).length = y_train.values.length - sp := by
    rw [absSubList, List.length_zipWith]
    simp only [pySliceFrom, pySliceToNeg]
    rw [if_neg (show ¬ sp = 0 by omega), List.length_drop, List.length_take]
    omega
  obtain ⟨q, hq, hq0⟩ := npMean_fin_nonneg (by rw [hlen]; omega)
    (absSubList_fin_nonneg ha hb)
  have hqmae : maeNaive y_train.values sp = EFloat.fin q := hq
  have hplen : (absSubList y_true.values y_pred.values).length ≠ 0 := by
    rw [absSubList, List.length_zipWith]
    have h1 : 0 < y_true.values.length := List.length_pos.mpr h_t
    have h2 : 0 < y_pred.values.length := List.length_pos.mpr h_p
    omega
  obtain ⟨m, hm, hm0⟩ := npMean_fin_nonneg hplen
    (absSubList_fin_nonneg h_true_fin h_pred_fin)
  refine ⟨q, hqmae, hq0, ?_, ?_⟩
  · intro hqne
    refine ⟨-m / q, ?_⟩
    rw [mase_score_ok h_idx h_tr h_pr h_ord, hm, hqmae]
    simp [EFloat.neg, EFloat.div_fin_fin_of_ne hqne]
  · intro hqz
    subst hqz
    rw [mase_score_ok h_idx h_tr h_pr h_ord, hm, hqmae]
    by_cases hmz : m = 0
    · left
      subst hmz
      simp [EFloat.neg, EFloat.div]
    · right
      have hmpos : 0 < m := lt_of_le_of_ne hm0 (Ne.symm hmz)
      have h1 : ¬ -m = 0 := by simpa using hmz
      have h2 : ¬ (0 : ℚ) < -m := by linarith
      simp [EFloat.neg, EFloat.div, h1, h2]

theorem mase_score_finite_unless_degenerate_witness :
    ∃ q : ℚ, maeNaive [.fin 10, .fin 12, .fin 14, .fin 16, .fin 18] 1 = .fin q ∧
      0 ≤ q ∧
      (q ≠ 0 → ∃ r : ℚ,
        mase_score ⟨[5, 6], [.fin 20, .fin 22]⟩ ⟨[5, 6], [.fin 21, .fin 21]⟩
          ⟨[0, 1, 2, 3, 4], [.fin 10, .fin 12, .fin 14, .fin 16, .fin 18]⟩ 1 =
          .ok (.fin r)) ∧
      (q = 0 →
        mase_score ⟨[5, 6], [.fin 20, .fin 22]⟩ ⟨[5, 6], [.fin 21, .fin 21]⟩
          ⟨[0, 1, 2, 3, 4], [.fin 10, .fin 12, .fin 14, .fin 16, .fin 18]⟩ 1 =
          .ok .nan ∨
        mase_score ⟨[5, 6], [.fin 20, .fin 22]⟩ ⟨[5, 6], [.fin 21, .fin 21]⟩
          ⟨[0, 1, 2, 3, 4], [.fin 10, .fin 12, .fin 14, .fin 16, .fin 18]⟩ 1 =
          .ok .ninf) :=
  mase_score_finite_unless_degenerate
    ⟨[5, 6], [.fin 20, .fin 22]⟩ ⟨[5, 6], [.fin 21, .fin 21]⟩
    ⟨[0, 1, 2, 3, 4], [.fin 10, .fin 12, .fin 14, .fin 16, .fin 18]⟩ 1
    rfl (by decide) (by decide) (by decide) (by decide) (by decide)
    (by intro x hx; fin_cases hx <;> exact ⟨_, rfl⟩)
    (by intro x hx; fin_cases hx <;> exact ⟨_, rfl⟩)
    (by intro x hx; fin_cases hx <;> exact ⟨_, rfl⟩)
    (by simp) (by simp)

/-! ### Scale invariance (C8) -/

theorem smapePoint_scale {c : ℚ} (hc : 0 < c) (x y : EFloat) :
    smapePoint (EFloat.mul (EFloat.fin c) x) (EFloat.mul (EFloat.fin c) y) =
      smapePoint x y := by
  have hc0 : ¬ c = 0 := hc.ne'
  cases x <;> cases y
  case fin.fin a b =>
    by_cases hz : |a| + |b| = 0
    · obtain ⟨ha, hb⟩ := (add_eq_zero_iff_of_nonneg (abs_nonneg a) (abs_nonneg b)).mp hz
      rw [abs_eq_zero] at ha hb
      subst ha; subst hb
      simp [smapePoint, EFloat.mul, EFloat.sub, EFloat.neg, EFloat.abs,
        EFloat.add, EFloat.div]
    · have hlhs : smapePoint (EFloat.fin (c * a)) (EFloat.fin (c * b)) =
          EFloat.div (EFloat.fin (c * |a - b|)) (EFloat.fin (c * (|a| + |b|))) := by
        simp only [smapePoint, EFloat.sub, EFloat.neg, EFloat.abs,
          EFloat.add_fin_fin]
        rw [show c * a + -(c * b) = c * (a - b) by ring, abs_mul, abs_mul, abs_mul,
          abs_of_pos hc, ← mul_add]
      have hrhs : smapePoint (EFloat.fin a) (EFloat.fin b) =
          EFloat.div (EFloat.fin |a - b|) (EFloat.fin (|a| + |b|)) := by
        simp only [smapePoint, EFloat.sub, EFloat.neg, EFloat.abs,
          EFloat.add_fin_fin, ← sub_eq_add_neg]
      rw [show EFloat.mul (EFloat.fin c) (EFloat.fin a) = EFloat.fin (c * a) from rfl,
        show EFloat.mul (EFloat.fin c) (EFloat.fin b) = EFloat.fin (c * b) from rfl,
        hlhs, hrhs]
      have hdz : ¬ c * (|a| + |b|) = 0 := mul_ne_zero hc0 hz
      rw [EFloat.div_fin_fin_of_ne hdz, EFloat.div_fin_fin_of_ne hz,
        mul_div_mul_left _ _ hc0]
  all_goals simp [smapePoint, EFloat.mul, EFloat.sub, EFloat.neg, EFloat.abs,
    EFloat.add, EFloat.div, hc0, hc]

theorem zipWith_smapePoint_scale {c : ℚ} (hc : 0 < c) :
    ∀ (a b : List EFloat),
      List.zipWith smapePoint (a.map (EFloat.mul (EFloat.fin c)))
        (b.map (EFloat.mul (EFloat.fin c))) = List.zipWith smapePoint a b := by
  intro a
  induction a with
  | nil => intro b; simp
  | cons x t ih =>
    intro b
    cases b with
    | nil => simp
    | cons y s =>
      simp only [List.map_cons, List.zipWith_cons_cons, ih]
      rw [smapePoint_scale hc]

/-- C8: scaling both `y_true` and `y_pred` by the same positive constant `c`
leaves `smape_score` unchanged (also through the validation path, since
scaling preserves the time index). -/
theorem smape_score_scale_invariant (y_true y_pred : Series) (c : ℚ)
    (hc : 0 < c) :
    smape_score (Series.scale c y_true) (Series.scale c y_pred) =
      smape_score y_true y_pred := by
  by_cases h : y_true.index = y_pred.index
  · have h2 : (Series.scale c y_true).index = (Series.scale c y_pred).index := h
    rw [smape_score_ok h2, smape_score_ok h]
    simp only [Series.scale]
    rw [zipWith_smapePoint_scale hc]
  · have h2 : (Series.scale c y_true).index ≠ (Series.scale c y_pred).index := h
    unfold smape_score
    rw [show check_consistent_time_indices (Series.scale c y_true)
          (Series.scale c y_pred) = .error .inconsistentIndex from by
        simp [check_consistent_time_indices, Series.scale, h],
      show check_consistent_time_indices y_true y_pred =
          .error .inconsistentIndex from by
        simp [check_consistent_time_indices, h]]

theorem smape_score_scale_invariant_witness :
    smape_score (Series.scale 2 ⟨[5, 6], [.fin 10, .fin 0]⟩)
        (Series.scale 2 ⟨[5, 6], [.fin 10, .fin 2]⟩) =
      smape_score ⟨[5, 6], [.fin 10, .fin 0]⟩ ⟨[5, 6], [.fin 10, .fin 2]⟩ :=
  smape_score_scale_invariant ⟨[5, 6], [.fin 10, .fin 0]⟩
    ⟨[5, 6], [.fin 10, .fin 2]⟩ 2 (by norm_num)
